import Mathlib

/-!
Shallow embedding of graph.py, a static analyzer that extracts data-model
classes from Python source files, aggregates them across a folder, detects
attribute-type inconsistencies, and builds diagram descriptions.

Syntax trees are modelled by the inductive types PyExpr, ClassItem and
TopStmt; a parsed file is a list of top-level statements, and a file whose
contents fail to parse is represented by the value none.  Python dicts are
modelled as insertion-ordered association lists with last-write-wins
insertion (dinsert), Python sets of strings as duplicate-free lists
(sinsert), and the fallible pieces of the pipeline return Except or Option.
-/

namespace GFunc

/-- The shapes of annotation and base-class expressions that graph.py
inspects: ast.Name, ast.Attribute, ast.Subscript, and every other
expression kind collapsed into one constructor. -/
inductive PyExpr : Type where
  | name (id : String)
  | attr (value : PyExpr) (a : String)
  | subscript (value : PyExpr) (slice : PyExpr)
  | otherExpr
  deriving DecidableEq, Repr

/-- Statements inside a class body: annotated assignments (the only shape
extraction reads), method definitions (read by the per-file diagram), and
everything else. -/
inductive ClassItem : Type where
  | annAssign (target : PyExpr) (ann : PyExpr)
  | funcDef (fname : String)
  | passItem
  deriving DecidableEq, Repr

/-- Top-level statements of a parsed module. -/
inductive TopStmt : Type where
  | classDef (cname : String) (bases : List PyExpr) (body : List ClassItem)
  | funcDef (fname : String)
  | otherStmt
  deriving DecidableEq, Repr

/-! ## Python dict and set model -/

/-- Last-write-wins insertion into an insertion-ordered association list,
modelling d[k] = v on a Python dict. -/
def dinsert (k : String) (v : α) : List (String × α) → List (String × α)
  | [] => [(k, v)]
  | (k', v') :: rest => if k' = k then (k, v) :: rest else (k', v') :: dinsert k v rest

/-- Dict lookup d[k], returning none when the key is absent. -/
def dlookup (k : String) : List (String × α) → Option α
  | [] => none
  | (k', v') :: rest => if k' = k then some v' else dlookup k rest

/-- The keys of an association list, in order. -/
def dkeys (d : List (String × α)) : List String := d.map Prod.fst

/-- The dict has no duplicate keys. -/
def dNodup (d : List (String × α)) : Prop := (dkeys d).Nodup

/-- d.update(e) on Python dicts: insert every entry of e into d in order. -/
def dupdate (d e : List (String × α)) : List (String × α) :=
  e.foldl (fun acc kv => dinsert kv.1 kv.2 acc) d

/-- s.add(x) on a Python set modelled as a duplicate-free list. -/
def sinsert (x : String) (l : List String) : List String :=
  if x ∈ l then l else l ++ [x]

/-- set(l) on a Python list: fold the elements into a duplicate-free list. -/
def listToSet (l : List String) : List String :=
  l.foldl (fun acc x => sinsert x acc) []

/-! ## Character-level string helpers (str.split and str.rstrip) -/

/-- Model of the Python call s.split(sep) for a single-character separator:
the list of maximal separator-free segments, keeping empty segments. -/
def pysplit (c : Char) : List Char → List (List Char)
  | [] => [[]]
  | x :: xs =>
    let r := pysplit c xs
    if x = c then [] :: r
    else
      match r with
      | [] => [[x]]
      | h :: t => (x :: h) :: t

/-- Model of the Python call s.rstrip(chr): drop every trailing occurrence
of the character. -/
def pyrstrip (c : Char) (l : List Char) : List Char :=
  (l.reverse.dropWhile (fun x => x = c)).reverse

/-! ## Type resolution (resolve_type in graph.py) -/

/-- The recognized generic container names in resolve_type. -/
def recognizedContainers : List String := ["List", "Optional", "Dict"]

/-- resolve_type from graph.py: a bare name resolves to itself, a qualified
annotation to its trailing component, a recognized single-level generic to
Outer[Inner] with Inner taken from the subscript argument, any other
subscript to ComplexType, and anything else to Unknown. -/
def resolve_type : PyExpr → String
  | .name i => i
  | .attr _ a => a
  | .otherExpr => "Unknown"
  | .subscript (.name c) (.name i) =>
      if c ∈ recognizedContainers then c ++ "[" ++ i ++ "]" else "ComplexType"
  | .subscript (.name c) (.subscript v2 s2) =>
      if c ∈ recognizedContainers then
        c ++ "[" ++ resolve_type (.subscript v2 s2) ++ "]"
      else "ComplexType"
  | .subscript (.name c) (.attr _ a) =>
      if c ∈ recognizedContainers then c ++ "[" ++ a ++ "]" else "ComplexType"
  | .subscript (.name _) .otherExpr => "ComplexType"
  | .subscript (.attr _ _) _ => "ComplexType"
  | .subscript (.subscript _ _) _ => "ComplexType"
  | .subscript .otherExpr _ => "ComplexType"

/-! ## File extraction (extract_classes_with_nested_models) -/

/-- The inner-model computation on a resolved type descriptor: when the
descriptor contains an opening bracket, the segment after the last opening
bracket with trailing closing brackets stripped, as in
attr_type.split(chr)[-1].rstrip(chr2); otherwise the descriptor itself when
it names a class collected in this file, and none when it does not. -/
def innerModelOf (localClasses : List String) (ty : String) : Option String :=
  if '[' ∈ ty.data then
    some (String.mk (pyrstrip ']' ((pysplit '[' ty.data).getLastD [])))
  else if ty ∈ localClasses then some ty
  else none

/-- The per-field step of extraction: produce the field record
(name, resolved type, is-nested) together with the nested-reference
triples this field appends; a field is nested exactly when the computed
inner model is a nonempty string (Python truthiness of inner_model). -/
def fieldContribution (localClasses : List String) (cname an ty : String) :
    (String × String × Bool) × List (String × String × String) :=
  match innerModelOf localClasses ty with
  | some im => if im = "" then ((an, ty, false), []) else ((an, ty, true), [(cname, an, im)])
  | none => ((an, ty, false), [])

/-- The attribute loop of extraction over one class body: fold over the
body, handling only annotated assignments whose target is a bare name, and
accumulate the field records and the nested-reference triples in order. -/
def extractClassFields (localClasses : List String) (cname : String)
    (body : List ClassItem) :
    List (String × String × Bool) × List (String × String × String) :=
  body.foldl (fun acc child =>
    match child with
    | .annAssign (.name an) a =>
        let c := fieldContribution localClasses cname an (resolve_type a)
        (acc.1 ++ [c.1], acc.2 ++ c.2)
    | _ => acc) ([], [])

/-- The dict comprehension collecting every top-level class definition of
the module body, name to (bases, body), later definitions overwriting
earlier ones. -/
def classDefinitions (body : List TopStmt) :
    List (String × (List PyExpr × List ClassItem)) :=
  body.foldl (fun acc s =>
    match s with
    | .classDef n bs b => dinsert n (bs, b) acc
    | _ => acc) []

/-- A direct base class marks the class as a base model when it is a bare
name BaseModel or a qualified name ending in BaseModel. -/
def isBaseModelBase : PyExpr → Bool
  | .name i => i == "BaseModel"
  | .attr _ a => a == "BaseModel"
  | _ => false

/-- The inheritance check of extraction over the list of direct bases. -/
def classIsBaseModel (bases : List PyExpr) : Bool := bases.any isBaseModelBase

/-- The result of extracting one file. -/
structure ExtractResult : Type where
  classes : List (String × List (String × String × Bool))
  base_models : List String
  nested_relationships : List (String × String × String)
  file_to_class_map : List (String × String)
  deriving DecidableEq, Repr

/-- The per-class step of extraction: record the defining file, compute the
base-model flag, run the attribute loop, and store the class entry. -/
def extractStep (file_path : String) (localClasses : List String)
    (acc : ExtractResult) (kv : String × (List PyExpr × List ClassItem)) :
    ExtractResult :=
  { classes := dinsert kv.1 (extractClassFields localClasses kv.1 kv.2.2).1 acc.classes
    base_models :=
      if classIsBaseModel kv.2.1 then sinsert kv.1 acc.base_models else acc.base_models
    nested_relationships :=
      acc.nested_relationships ++ (extractClassFields localClasses kv.1 kv.2.2).2
    file_to_class_map := dinsert kv.1 file_path acc.file_to_class_map }

/-- extract_classes_with_nested_models on an already parsed module body:
collect the top-level class table, then process each collected class in
order. -/
def extract_classes_pure (file_path : String) (body : List TopStmt) : ExtractResult :=
  let defs := classDefinitions body
  defs.foldl (extractStep file_path (dkeys defs)) ⟨[], [], [], []⟩

/-- extract_classes_with_nested_models including the parse step: a file
whose contents fail to parse (modelled by none) propagates the failure to
the caller. -/
def extract_classes_with_nested_models (file_path : String)
    (parsed : Option (List TopStmt)) : Except String ExtractResult :=
  match parsed with
  | none => .error ("SyntaxError: " ++ file_path)
  | some body => .ok (extract_classes_pure file_path body)

/-! ## Folder aggregation (analyze_models_folder) -/

/-- The aggregated folder-wide tables. -/
structure AggResult : Type where
  all_classes : List (String × List (String × String × Bool))
  all_base_models : List String
  all_relationships : List (String × String × String)
  class_to_file_map : List (String × String)
  deriving DecidableEq, Repr

/-- Merging one extraction result into the aggregate: class table and
class-to-file map by dict update, base models by set union, relationship
lists by concatenation. -/
def mergeFile (acc : AggResult) (r : ExtractResult) : AggResult :=
  { all_classes := dupdate acc.all_classes r.classes
    all_base_models := r.base_models.foldl (fun s x => sinsert x s) acc.all_base_models
    all_relationships := acc.all_relationships ++ r.nested_relationships
    class_to_file_map := dupdate acc.class_to_file_map r.file_to_class_map }

/-- One iteration of the aggregation loop on a parsed file. -/
def mergePureStep (acc : AggResult) (f : String × List TopStmt) : AggResult :=
  mergeFile acc (extract_classes_pure f.1 f.2)

/-- analyze_models_folder on a folder all of whose files parse, given as
the list of (path, parsed body) pairs in traversal order. -/
def analyze_models_pure (files : List (String × List TopStmt)) : AggResult :=
  files.foldl mergePureStep ⟨[], [], [], []⟩

/-- One iteration of the aggregation loop when extraction can fail: an
already failed aggregation stays failed, and a failing extraction turns
the aggregation into that failure. -/
def analyzeStep (acc : Except String AggResult)
    (f : String × Option (List TopStmt)) : Except String AggResult :=
  acc.bind (fun a => (extract_classes_with_nested_models f.1 f.2).map (mergeFile a))

/-- analyze_models_folder including parse failures: extraction errors are
not caught here, so the first failing file aborts the whole aggregation. -/
def analyze_models_folder (files : List (String × Option (List TopStmt))) :
    Except String AggResult :=
  files.foldl analyzeStep (.ok ⟨[], [], [], []⟩)

/-! ## Type normalization and inconsistency detection -/

/-- normalize_type from graph.py: when the descriptor contains an opening
bracket, take attr_type.split(chr)[1] and strip trailing closing brackets;
otherwise return the descriptor unchanged. -/
def normalize_type (ty : String) : String :=
  if '[' ∈ ty.data then
    String.mk (pyrstrip ']' ((pysplit '[' ty.data).getD 1 []))
  else ty

/-- One step of the attribute-index loop: record the normalized type of the
field under the field name and append the owning file; the lookup of the
owning class in the class-to-file map can fail (KeyError), modelled by
none. -/
def addAttr (fmap : List (String × String)) (cname : String)
    (st : List (String × List String) × List (String × List String))
    (fr : String × String × Bool) :
    Option (List (String × List String) × List (String × List String)) :=
  match dlookup cname fmap with
  | none => none
  | some file =>
      some (dinsert fr.1 (sinsert (normalize_type fr.2.1) ((dlookup fr.1 st.1).getD [])) st.1,
            dinsert fr.1 (((dlookup fr.1 st.2).getD []) ++ [file]) st.2)

/-- The double loop of find_inconsistent_attributes building the
attribute-to-types and attribute-to-files indexes. -/
def buildIndex (classes : List (String × List (String × String × Bool)))
    (fmap : List (String × String)) :
    Option (List (String × List String) × List (String × List String)) :=
  classes.foldlM (fun st c => c.2.foldlM (fun st2 fr => addAttr fmap c.1 st2 fr) st) ([], [])

/-- A per-attribute entry of the inconsistency summary. -/
structure SummaryEntry : Type where
  types : List String
  files : List String
  deriving DecidableEq, Repr

/-- The output of find_inconsistent_attributes. -/
structure InconsResult : Type where
  inconsistent : List String
  summary : List (String × SummaryEntry)
  deriving DecidableEq, Repr

/-- find_inconsistent_attributes from graph.py: build the indexes, then
keep exactly the attribute names whose recorded type set has more than one
element, each with its type set and the set of its recorded files. -/
def find_inconsistent_attributes
    (classes : List (String × List (String × String × Bool)))
    (fmap : List (String × String)) : Option InconsResult :=
  match buildIndex classes fmap with
  | none => none
  | some (atypes, afiles) =>
      some { inconsistent := (atypes.filter (fun kv => 1 < kv.2.length)).map Prod.fst
             summary := (atypes.filter (fun kv => 1 < kv.2.length)).map
               (fun kv => (kv.1, ⟨kv.2, listToSet ((dlookup kv.1 afiles).getD [])⟩)) }

/-! ## Folder-wide diagram label rows (generate_inconsistent_model_diagram) -/

/-- The three mutually exclusive visual classifications of a field row. -/
inductive RowClass : Type where
  | inconsistentRow
  | nestedRow
  | plainRow
  deriving DecidableEq, Repr

/-- One label row of a class node: inconsistent names first, then nested
fields, then plain fields, exactly as the row-building branch in
generate_inconsistent_model_diagram. -/
def attrRow (inconsistentAttrs : List String) (fr : String × String × Bool) :
    String × String × RowClass :=
  if fr.1 ∈ inconsistentAttrs then (fr.1, fr.2.1, .inconsistentRow)
  else if fr.2.2 then (fr.1, fr.2.1, .nestedRow)
  else (fr.1, fr.2.1, .plainRow)

/-- The field rows of one class label, accumulated in attribute order as in
the label concatenation loop. -/
def classLabelRows (attrs : List (String × String × Bool))
    (inconsistentAttrs : List String) : List (String × String × RowClass) :=
  attrs.foldl (fun rows fr => rows ++ [attrRow inconsistentAttrs fr]) []

/-! ## Per-file structure diagram (generate_python_file_diagram) -/

/-- The method names listed inside a class node of the per-file diagram. -/
def classMethods (body : List ClassItem) : List String :=
  body.filterMap (fun it =>
    match it with
    | .funcDef n => some n
    | _ => none)

/-- The per-file structure diagram data: the file node, one class node per
top-level class definition with its method names, one node per top-level
function, and the dashed same-file inheritance edges. -/
structure FileDiagram : Type where
  fileNode : String
  classNodes : List (String × List String)
  funcNodes : List String
  inheritanceEdges : List (String × String)
  deriving DecidableEq, Repr

/-- The body of the try block of generate_python_file_diagram on a parsed
module: collect class and function nodes in order, then add a dashed edge
from base to subclass whenever a bare-name base is a class defined in the
same file. -/
def buildFileDiagram (file_name : String) (body : List TopStmt) : FileDiagram :=
  let classNodes := body.filterMap (fun s =>
    match s with
    | .classDef n _ b => some (n, classMethods b)
    | _ => none)
  let funcNodes := body.filterMap (fun s =>
    match s with
    | .funcDef n => some n
    | _ => none)
  let classes := body.foldl (fun acc s =>
    match s with
    | .classDef n bs b => dinsert n (bs, b) acc
    | _ => acc) []
  let inh := classes.flatMap (fun kv =>
    kv.2.1.filterMap (fun base =>
      match base with
      | .name bn => if (dlookup bn classes).isSome then some (bn, kv.1) else none
      | _ => none))
  ⟨file_name, classNodes, funcNodes, inh⟩

/-- The outcome of generate_python_file_diagram for one file. -/
inductive DiagramOutcome : Type where
  | generated (d : FileDiagram)
  | failed (message : String)
  deriving DecidableEq, Repr

/-- generate_python_file_diagram: every failure inside the try block (in
particular a parse failure of the file contents) is caught and reported,
producing a failure outcome for this file only. -/
def generate_python_file_diagram (file_path : String)
    (parsed : Option (List TopStmt)) : DiagramOutcome :=
  match parsed with
  | none => .failed ("Error generating diagram for " ++ file_path)
  | some body => .generated (buildFileDiagram file_path body)

/-- The per-file diagram loop of the main script: one outcome per file, in
order, regardless of individual failures. -/
def diagramPass (files : List (String × Option (List TopStmt))) : List DiagramOutcome :=
  files.map (fun f => generate_python_file_diagram f.1 f.2)

/-! ## Specification-side helper definitions used by the claim theorems -/

/-- The segment of a character list strictly after the first opening
bracket and strictly before the next opening bracket or the end of the
list. -/
def segAfterFirstOpen (l : List Char) : List Char :=
  ((l.dropWhile (fun x => x != '[')).tail).takeWhile (fun x => x != '[')

/-- The segment of a character list strictly after the last opening
bracket. -/
def segAfterLastOpen (l : List Char) : List Char :=
  (l.reverse.takeWhile (fun x => x != '[')).reverse

/-- The segment strictly between the first opening bracket and the last
closing bracket: the reading of normalization stated by the claims. -/
def betweenFirstOpenLastClose (l : List Char) : List Char :=
  ((((l.dropWhile (fun x => x != '[')).tail).reverse.dropWhile
    (fun x => x != ']')).tail).reverse

/-- The names of the annotated fields of a class body whose target is a
bare name, in declaration order. -/
def annotatedFieldNames (body : List ClassItem) : List String :=
  body.filterMap (fun c =>
    match c with
    | .annAssign (.name an) _ => some an
    | _ => none)

/-- The annotated bare-name fields of a class body, with their
annotations, in declaration order. -/
def annFields (body : List ClassItem) : List (String × PyExpr) :=
  body.filterMap (fun c =>
    match c with
    | .annAssign (.name an) a => some (an, a)
    | _ => none)

/-- All (class name, field record) pairs of a class table, in table
order. -/
def classFieldPairs (classes : List (String × List (String × String × Bool))) :
    List (String × (String × String × Bool)) :=
  classes.flatMap (fun c => c.2.map (fun fr => (c.1, fr)))

/-- The normalized types recorded for one attribute name over a list of
(class, field) pairs, in processing order, repetitions kept. -/
def typesOfPairs (pr : List (String × (String × String × Bool))) (a : String) :
    List String :=
  pr.filterMap (fun p => if p.2.1 = a then some (normalize_type p.2.2.1) else none)

/-- The owning files recorded for one attribute name over a list of
(class, field) pairs. -/
def filesOfPairs (fmap : List (String × String))
    (pr : List (String × (String × String × Bool))) (a : String) : List String :=
  pr.filterMap (fun p => if p.2.1 = a then dlookup p.1 fmap else none)

/-- The normalized types recorded for one attribute name across a whole
class table, repetitions kept; its distinct elements form the set the
claims speak about. -/
def attrTypesSpec (classes : List (String × List (String × String × Bool)))
    (a : String) : List String :=
  typesOfPairs (classFieldPairs classes) a

/-- The files of the classes in which one attribute name occurs, across a
whole class table. -/
def attrFilesSpec (fmap : List (String × String))
    (classes : List (String × List (String × String × Bool)))
    (a : String) : List String :=
  filesOfPairs fmap (classFieldPairs classes) a

/-- The module body contains no top-level class definition. -/
def hasNoClassDef (l : List TopStmt) : Bool :=
  l.all (fun s =>
    match s with
    | .classDef _ _ _ => false
    | _ => true)

/-- The field records one collected class definition contributes to the
extraction result. -/
def fieldsOfDef (localClasses : List String)
    (kv : String × (List PyExpr × List ClassItem)) : List (String × String × Bool) :=
  (extractClassFields localClasses kv.1 kv.2.2).1

/-- The nested-reference triples one collected class definition
contributes to the extraction result. -/
def nestedOfDef (localClasses : List String)
    (kv : String × (List PyExpr × List ClassItem)) : List (String × String × String) :=
  (extractClassFields localClasses kv.1 kv.2.2).2

/-- The invariant of the index-building loop of
find_inconsistent_attributes after a given list of (class, field) pairs
has been processed: the type index has no duplicate keys, both indexes
have the same keys, each recorded type list is duplicate-free with the
same members as the specification-side list of recorded types, absent
keys correspond to unseen attribute names, and each recorded file list
has the same members as the specification-side list of owning files. -/
def IndexInv (fmap : List (String × String))
    (pr : List (String × (String × String × Bool)))
    (st : List (String × List String) × List (String × List String)) : Prop :=
  dNodup st.1 ∧ dkeys st.1 = dkeys st.2 ∧
  ∀ a : String,
    (∀ l, dlookup a st.1 = some l → l.Nodup ∧ ∀ t, (t ∈ l ↔ t ∈ typesOfPairs pr a)) ∧
    (dlookup a st.1 = none → typesOfPairs pr a = []) ∧
    (∀ lf, dlookup a st.2 = some lf → ∀ f, (f ∈ lf ↔ f ∈ filesOfPairs fmap pr a))

/-! ## Lemmas about the dict and set model -/

@[simp] theorem dlookup_nil {α : Type} (k : String) : dlookup (α := α) k [] = none := rfl

theorem dlookup_cons {α : Type} (k k' : String) (v : α) (d : List (String × α)) :
    dlookup k ((k', v) :: d) = if k' = k then some v else dlookup k d := rfl

@[simp] theorem dlookup_dinsert_self {α : Type} (k : String) (v : α) (d : List (String × α)) :
    dlookup k (dinsert k v d) = some v := by
  induction d with
  | nil => simp [dinsert, dlookup]
  | cons hd tl ih =>
    obtain ⟨k', v'⟩ := hd
    by_cases h : k' = k
    · simp [dinsert, dlookup, h]
    · simp [dinsert, dlookup, h, ih]

theorem dlookup_dinsert_ne {α : Type} {k k' : String} (h : k' ≠ k) (v : α)
    (d : List (String × α)) : dlookup k (dinsert k' v d) = dlookup k d := by
  have h' : ¬ k = k' := fun hh => h hh.symm
  induction d with
  | nil => simp [dinsert, dlookup, h]
  | cons hd tl ih =>
    obtain ⟨k'', v''⟩ := hd
    by_cases h2 : k'' = k'
    · subst h2
      simp [dinsert, dlookup, h]
    · by_cases h3 : k'' = k
      · simp [dinsert, dlookup, h2, h3, h', ih]
      · simp [dinsert, dlookup, h2, h3, h', ih]

theorem dkeys_dinsert {α : Type} (k : String) (v : α) (d : List (String × α)) :
    dkeys (dinsert k v d) = if k ∈ dkeys d then dkeys d else dkeys d ++ [k] := by
  induction d with
  | nil => simp [dinsert, dkeys]
  | cons hd tl ih =>
    obtain ⟨k', v'⟩ := hd
    by_cases h : k' = k
    · subst h
      simp [dinsert, dkeys]
    · have hne : ¬ k = k' := fun hh => h hh.symm
      simp only [dinsert, if_neg h, dkeys, List.map_cons, List.mem_cons]
      simp only [dkeys] at ih
      rw [ih]
      by_cases hm : k ∈ tl.map Prod.fst
      · simp [hm, hne]
      · simp [hm, hne]

theorem dinsert_of_not_mem {α : Type} {k : String} {d : List (String × α)}
    (h : k ∉ dkeys d) (v : α) : dinsert k v d = d ++ [(k, v)] := by
  induction d with
  | nil => simp [dinsert]
  | cons hd tl ih =>
    obtain ⟨k', v'⟩ := hd
    simp only [dkeys, List.map_cons, List.mem_cons] at h
    push_neg at h
    have h1 : k' ≠ k := fun hh => h.1 hh.symm
    simp only [dinsert, if_neg h1, List.cons_append, List.cons.injEq, true_and]
    exact ih (by simpa [dkeys] using h.2)

theorem dNodup_dinsert {α : Type} {d : List (String × α)} (h : dNodup d)
    (k : String) (v : α) : dNodup (dinsert k v d) := by
  unfold dNodup at *
  rw [dkeys_dinsert]
  by_cases hm : k ∈ dkeys d
  · simpa [hm]
  · simpa [hm, List.nodup_append] using h

theorem dlookup_eq_none_iff {α : Type} (k : String) (d : List (String × α)) :
    dlookup k d = none ↔ k ∉ dkeys d := by
  induction d with
  | nil => simp [dkeys]
  | cons hd tl ih =>
    obtain ⟨k', v'⟩ := hd
    by_cases h : k' = k
    · simp [dlookup, dkeys, h]
    · have : ¬ k = k' := fun hh => h hh.symm
      simp [dlookup, dkeys, h, this, ih]

theorem dlookup_isSome_iff {α : Type} (k : String) (d : List (String × α)) :
    (dlookup k d).isSome = true ↔ k ∈ dkeys d := by
  rw [← Decidable.not_not (p := k ∈ dkeys d), ← dlookup_eq_none_iff]
  cases dlookup k d <;> simp

theorem dlookup_mem {α : Type} {k : String} {v : α} {d : List (String × α)}
    (h : dlookup k d = some v) : (k, v) ∈ d := by
  induction d with
  | nil => simp [dlookup] at h
  | cons hd tl ih =>
    obtain ⟨k', v'⟩ := hd
    by_cases h2 : k' = k
    · subst h2
      rw [dlookup_cons, if_pos rfl] at h
      injection h with h
      subst h
      exact List.mem_cons_self _ _
    · simp only [dlookup, if_neg h2] at h
      exact List.mem_cons_of_mem _ (ih h)

theorem mem_dlookup {α : Type} {k : String} {v : α} {d : List (String × α)}
    (hnd : dNodup d) (h : (k, v) ∈ d) : dlookup k d = some v := by
  induction d with
  | nil => simp at h
  | cons hd tl ih =>
    obtain ⟨k', v'⟩ := hd
    unfold dNodup dkeys at hnd
    simp only [List.map_cons, List.nodup_cons] at hnd
    rcases List.mem_cons.mp h with h1 | h1
    · rw [Prod.mk.injEq] at h1
      obtain ⟨rfl, rfl⟩ := h1
      simp [dlookup]
    · have hk : k' ≠ k := by
        intro he
        subst he
        exact hnd.1 (by simpa [dkeys] using List.mem_map_of_mem Prod.fst h1)
      simp only [dlookup, if_neg hk]
      exact ih hnd.2 h1

theorem mem_sinsert (x y : String) (l : List String) :
    x ∈ sinsert y l ↔ x = y ∨ x ∈ l := by
  unfold sinsert
  by_cases h : y ∈ l
  · simp only [if_pos h]
    constructor
    · exact Or.inr
    · rintro (rfl | hx)
      · exact h
      · exact hx
  · simp only [if_neg h, List.mem_append, List.mem_singleton]
    tauto

theorem sinsert_of_not_mem {y : String} {l : List String} (h : y ∉ l) :
    sinsert y l = l ++ [y] := by simp [sinsert, h]

theorem sinsert_nodup {l : List String} (h : l.Nodup) (y : String) :
    (sinsert y l).Nodup := by
  unfold sinsert
  by_cases hm : y ∈ l
  · simpa [hm]
  · simpa [hm, List.nodup_append] using h

theorem mem_listToSet (x : String) (l : List String) :
    x ∈ listToSet l ↔ x ∈ l := by
  suffices hgen : ∀ (l acc : List String), x ∈ l.foldl (fun a y => sinsert y a) acc ↔ x ∈ acc ∨ x ∈ l by
    unfold listToSet
    rw [hgen]
    simp
  intro l
  induction l with
  | nil => intro acc; simp
  | cons hd tl ih =>
    intro acc
    simp only [List.foldl_cons, ih, mem_sinsert, List.mem_cons]
    tauto

theorem dupdate_nil_left {α : Type} (e : List (String × α)) :
    dupdate [] e = e.foldl (fun acc kv => dinsert kv.1 kv.2 acc) [] := rfl

theorem dupdate_append_of_disjoint {α : Type} :
    ∀ (e d : List (String × α)), dNodup e → (∀ k ∈ dkeys e, k ∉ dkeys d) →
      dupdate d e = d ++ e := by
  intro e
  induction e with
  | nil => intro d _ _; simp [dupdate]
  | cons hd tl ih =>
    intro d hnd hdisj
    obtain ⟨k, v⟩ := hd
    unfold dNodup dkeys at hnd
    simp only [List.map_cons, List.nodup_cons] at hnd
    have hk : k ∉ dkeys d := hdisj k (by simp [dkeys])
    have step : dupdate d ((k, v) :: tl) = dupdate (d ++ [(k, v)]) tl := by
      simp [dupdate, dinsert_of_not_mem hk]
    have hdisj2 : ∀ k' ∈ dkeys tl, k' ∉ dkeys (d ++ [(k, v)]) := by
      intro k' hk'
      have hne : k' ≠ k := by
        intro he
        subst he
        exact hnd.1 (by simpa [dkeys] using hk')
      have hnotd : k' ∉ dkeys d := by
        refine hdisj k' ?_
        simp only [dkeys, List.map_cons, List.mem_cons]
        exact Or.inr (by simpa [dkeys] using hk')
      simp only [dkeys, List.map_append, List.map_cons, List.map_nil, List.mem_append,
        List.mem_singleton]
      push_neg
      exact ⟨by simpa [dkeys] using hnotd, hne⟩
    rw [step, ih (d ++ [(k, v)]) hnd.2 hdisj2]
    simp

theorem dupdate_nil_eq {α : Type} {e : List (String × α)} (h : dNodup e) :
    dupdate [] e = e := by
  have := dupdate_append_of_disjoint e [] h (by simp [dkeys])
  simpa using this

theorem dlookup_dupdate {α : Type} :
    ∀ (e d : List (String × α)) (k : String), dNodup e →
      dlookup k (dupdate d e) =
        match dlookup k e with
        | some v => some v
        | none => dlookup k d := by
  intro e
  induction e with
  | nil => intro d k _; simp [dupdate]
  | cons hd tl ih =>
    intro d k hnd
    obtain ⟨k', v'⟩ := hd
    unfold dNodup dkeys at hnd
    simp only [List.map_cons, List.nodup_cons] at hnd
    have step : dupdate d ((k', v') :: tl) = dupdate (dinsert k' v' d) tl := rfl
    rw [step, ih (dinsert k' v' d) k hnd.2]
    by_cases h : k' = k
    · subst h
      have : dlookup k' tl = none := by
        rw [dlookup_eq_none_iff]
        exact hnd.1
      simp [dlookup, this]
    · simp [dlookup, h, dlookup_dinsert_ne h]

theorem dkeys_dinsert_congr {α β : Type} :
    ∀ (d : List (String × α)) (d' : List (String × β)) (k : String) (v : α) (v' : β),
      dkeys d = dkeys d' → dkeys (dinsert k v d) = dkeys (dinsert k v' d') := by
  intro d
  induction d with
  | nil =>
    intro d' k v v' h
    cases d' with
    | nil => simp [dinsert, dkeys]
    | cons hd tl => simp [dkeys] at h
  | cons hd tl ih =>
    intro d' k v v' h
    cases d' with
    | nil => simp [dkeys] at h
    | cons hd' tl' =>
      obtain ⟨a, x⟩ := hd
      obtain ⟨a', x'⟩ := hd'
      simp only [dkeys, List.map_cons, List.cons.injEq] at h
      obtain ⟨rfl, htl⟩ := h
      by_cases hk : a = k
      · simp [dinsert, hk, dkeys, htl]
      · simp only [dinsert, if_neg hk, dkeys, List.map_cons, List.cons.injEq, true_and]
        exact ih tl' k v v' htl

theorem dkeys_dupdate_congr {α β : Type} :
    ∀ (e : List (String × α)) (e' : List (String × β)) (d : List (String × α))
      (d' : List (String × β)),
      dkeys d = dkeys d' → dkeys e = dkeys e' →
      dkeys (dupdate d e) = dkeys (dupdate d' e') := by
  intro e
  induction e with
  | nil =>
    intro e' d d' hd he
    cases e' with
    | nil => simpa [dupdate]
    | cons hd' tl' => simp [dkeys] at he
  | cons hd tl ih =>
    intro e' d d' hdk he
    cases e' with
    | nil => simp [dkeys] at he
    | cons hd' tl' =>
      obtain ⟨a, x⟩ := hd
      obtain ⟨a', x'⟩ := hd'
      simp only [dkeys, List.map_cons, List.cons.injEq] at he
      obtain ⟨rfl, htl⟩ := he
      have step : dupdate d ((a, x) :: tl) = dupdate (dinsert a x d) tl := rfl
      have step' : dupdate d' ((a, x') :: tl') = dupdate (dinsert a x' d') tl' := rfl
      rw [step, step']
      exact ih tl' _ _ (dkeys_dinsert_congr d d' a x x' hdk) htl

/-! ## Lemmas about pysplit and pyrstrip -/

theorem takeWhile_append_of_all {α : Type} {p : α → Bool} :
    ∀ {l1 : List α}, (∀ x ∈ l1, p x = true) →
      ∀ (l2 : List α), (l1 ++ l2).takeWhile p = l1 ++ l2.takeWhile p := by
  intro l1
  induction l1 with
  | nil => intro _ l2; simp
  | cons hd tl ih =>
    intro h l2
    have hhd : p hd = true := h hd (by simp)
    simp only [List.cons_append, List.takeWhile_cons, hhd, if_true]
    rw [ih (fun x hx => h x (by simp [hx])) l2]

theorem takeWhile_eq_self_of_all {α : Type} {p : α → Bool} {l : List α}
    (h : ∀ x ∈ l, p x = true) : l.takeWhile p = l := by
  have := takeWhile_append_of_all h []
  simpa using this

theorem takeWhile_append_of_break {α : Type} {p : α → Bool} :
    ∀ {l1 : List α} {y : α}, y ∈ l1 → p y = false →
      ∀ (l2 : List α), (l1 ++ l2).takeWhile p = l1.takeWhile p := by
  intro l1
  induction l1 with
  | nil => intro y hy _ _; simp at hy
  | cons hd tl ih =>
    intro y hy hpy l2
    by_cases hhd : p hd = true
    · have hyt : y ∈ tl := by
        rcases List.mem_cons.mp hy with rfl | hm
        · rw [hhd] at hpy; cases hpy
        · exact hm
      simp only [List.cons_append, List.takeWhile_cons, hhd, if_true]
      rw [ih hyt hpy l2]
    · have hhd' : p hd = false := by
        cases hp : p hd
        · rfl
        · exact absurd hp hhd
      simp [List.takeWhile_cons, hhd']

theorem dropWhile_eq_self_of_all {α : Type} {p : α → Bool} {l : List α}
    (h : ∀ x ∈ l, p x = false) : l.dropWhile p = l := by
  cases l with
  | nil => rfl
  | cons hd tl =>
    have : p hd = false := h hd (by simp)
    simp [List.dropWhile_cons, this]

theorem dropWhile_eq_nil_of_all {α : Type} {p : α → Bool} :
    ∀ {l : List α}, (∀ x ∈ l, p x = true) → l.dropWhile p = [] := by
  intro l
  induction l with
  | nil => intro _; rfl
  | cons hd tl ih =>
    intro h
    have : p hd = true := h hd (by simp)
    simp only [List.dropWhile_cons, this, if_true]
    exact ih (fun x hx => h x (by simp [hx]))

/-- The defining recursion of pysplit seen at segment granularity: the
first separator-free segment, followed by the split of what comes after
the first separator when there is one. -/
theorem pysplit_eq_cons (c : Char) :
    ∀ l : List Char,
      pysplit c l =
        l.takeWhile (fun x => x != c) ::
          (if c ∈ l then pysplit c ((l.dropWhile (fun x => x != c)).tail) else []) := by
  intro l
  induction l with
  | nil => simp [pysplit]
  | cons x xs ih =>
    by_cases hx : x = c
    · subst hx
      simp [pysplit, List.takeWhile_cons, List.dropWhile_cons]
    · have hxb : (x != c) = true := by simp [hx]
      have hmem : (c ∈ x :: xs) = (c ∈ xs) := by
        simp only [List.mem_cons, eq_iff_iff]
        constructor
        · rintro (rfl | h)
          · exact absurd rfl hx
          · exact h
        · exact Or.inr
      rw [pysplit, if_neg hx, ih]
      simp only [List.takeWhile_cons, hxb, if_true, List.dropWhile_cons, hmem]

theorem pysplit_ne_nil (c : Char) (l : List Char) : pysplit c l ≠ [] := by
  rw [pysplit_eq_cons]
  simp

theorem pysplit_headD (c : Char) (l : List Char) :
    (pysplit c l).headD [] = l.takeWhile (fun x => x != c) := by
  rw [pysplit_eq_cons]
  rfl

theorem pysplit_getD_one (c : Char) (l : List Char) :
    (pysplit c l).getD 1 [] =
      ((l.dropWhile (fun x => x != c)).tail).takeWhile (fun x => x != c) := by
  rw [pysplit_eq_cons]
  by_cases h : c ∈ l
  · rw [if_pos h, List.getD_cons_succ, pysplit_eq_cons, List.getD_cons_zero]
  · have hall : ∀ x ∈ l, (fun x => x != c) x = true := by
      intro x hx
      simp only [bne_iff_ne, ne_eq, decide_eq_true_eq]
      intro hc
      subst hc
      exact h hx
    rw [if_neg h, dropWhile_eq_nil_of_all hall]
    rfl

theorem getLastD_cons_of_ne_nil {α : Type} {l : List α} (h : l ≠ [])
    (a d : α) : (a :: l).getLastD d = l.getLastD d := by
  cases l with
  | nil => exact absurd rfl h
  | cons b t => rfl

theorem takeWhile_append_singleton_false {α : Type} {p : α → Bool} {y : α}
    (hy : p y = false) :
    ∀ m : List α, (m ++ [y]).takeWhile p = m.takeWhile p := by
  intro m
  induction m with
  | nil => simp [List.takeWhile_cons, hy]
  | cons a t ih =>
    by_cases ha : p a = true
    · simp only [List.cons_append, List.takeWhile_cons, ha, if_true]
      rw [ih]
    · have ha' : p a = false := by
        cases hp : p a
        · rfl
        · exact absurd hp ha
      simp [List.takeWhile_cons, ha']

theorem getLastD_default_irrel {α : Type} {l : List α} (h : l ≠ []) (d d' : α) :
    l.getLastD d = l.getLastD d' := by
  cases l with
  | nil => exact absurd rfl h
  | cons a t => rfl

theorem pysplit_getLastD (c : Char) :
    ∀ l : List Char,
      (pysplit c l).getLastD [] = (l.reverse.takeWhile (fun x => x != c)).reverse := by
  intro l
  induction l with
  | nil => simp [pysplit]
  | cons x xs ih =>
    by_cases hx : x = c
    · have hstep : pysplit c (x :: xs) = [] :: pysplit c xs := by
        rw [pysplit, if_pos hx]
      have hxb : ((fun z => z != c) x) = false := by simp [hx]
      rw [hstep, List.getLastD_cons, getLastD_default_irrel (pysplit_ne_nil c xs) _ [],
        ih, List.reverse_cons,
        @takeWhile_append_singleton_false Char (fun z => z != c) x hxb xs.reverse]
    · have hxb : (x != c) = true := by simp [hx]
      obtain hchar := pysplit_eq_cons c xs
      have hstep : pysplit c (x :: xs) =
          (x :: (pysplit c xs).headD []) :: (pysplit c xs).tail := by
        rw [pysplit, if_neg hx]
        cases hp : pysplit c xs with
        | nil => exact absurd hp (pysplit_ne_nil c xs)
        | cons a t => rfl
      by_cases hc : c ∈ xs
      · have htail_ne : (pysplit c xs).tail ≠ [] := by
          rw [hchar, if_pos hc]
          exact pysplit_ne_nil c _
        have hlast : ((x :: (pysplit c xs).headD []) :: (pysplit c xs).tail).getLastD [] =
            (pysplit c xs).getLastD [] := by
          cases hp : pysplit c xs with
          | nil => exact absurd hp (pysplit_ne_nil c xs)
          | cons a t =>
            have ht : t ≠ [] := by
              have h2 := htail_ne
              rw [hp] at h2
              exact h2
            simp only [List.headD_cons, List.tail_cons, List.getLastD_cons]
            exact getLastD_default_irrel ht _ a
        have hcrev : c ∈ xs.reverse := by simpa using hc
        have hcb : ((fun y => y != c) c) = false := by simp
        rw [hstep, hlast, ih, List.reverse_cons,
          @takeWhile_append_of_break Char (fun y => y != c) xs.reverse c hcrev hcb [x]]
      · have hall : ∀ y ∈ xs.reverse ++ [x], ((fun z => z != c) y) = true := by
          intro y hy
          rcases List.mem_append.mp hy with h1 | h1
          · have : y ∈ xs := by simpa using h1
            simp only [bne_iff_ne, ne_eq, decide_eq_true_eq]
            intro he
            subst he
            exact hc this
          · have : y = x := by simpa using h1
            subst this
            exact hxb
        have hallxs : ∀ y ∈ xs, ((fun z => z != c) y) = true := by
          intro y hy
          exact hall y (by simp [hy])
        have hxs_take : xs.takeWhile (fun z => z != c) = xs :=
          takeWhile_eq_self_of_all hallxs
        have htail_nil : (pysplit c xs).tail = [] := by
          rw [hchar, if_neg hc]
          simp
        have hhead : (pysplit c xs).headD [] = xs := by
          rw [pysplit_headD, hxs_take]
        rw [hstep, htail_nil, hhead, List.reverse_cons,
          takeWhile_eq_self_of_all hall]
        simp

theorem dNodup_dupdate {α : Type} :
    ∀ (e d : List (String × α)), dNodup d → dNodup (dupdate d e) := by
  intro e
  induction e with
  | nil => intro d h; simpa [dupdate]
  | cons hd tl ih =>
    intro d h
    obtain ⟨k, v⟩ := hd
    have step : dupdate d ((k, v) :: tl) = dupdate (dinsert k v d) tl := rfl
    rw [step]
    exact ih _ (dNodup_dinsert h k v)

/-! ## Lemmas about pyrstrip, normalize_type and innerModelOf -/

theorem string_mk_data (s : String) : String.mk s.data = s := by
  cases s
  rfl

theorem pyrstrip_append_singleton {c : Char} {l : List Char} (h : c ∉ l) :
    pyrstrip c (l ++ [c]) = l := by
  unfold pyrstrip
  have hrev : (l ++ [c]).reverse = c :: l.reverse := by simp
  rw [hrev, List.dropWhile_cons, if_pos (by simp : (decide (c = c)) = true)]
  have hall : ∀ y ∈ l.reverse, (decide (y = c)) = false := by
    intro y hy
    have : y ∈ l := by simpa using hy
    simp only [decide_eq_false_iff_not]
    intro he
    subst he
    exact h this
  rw [dropWhile_eq_self_of_all hall, List.reverse_reverse]

theorem normalize_type_characterization (ty : String) :
    ('[' ∉ ty.data → normalize_type ty = ty) ∧
    ('[' ∈ ty.data →
      normalize_type ty = String.mk (pyrstrip ']' (segAfterFirstOpen ty.data))) := by
  constructor
  · intro h
    unfold normalize_type
    rw [if_neg h]
  · intro h
    unfold normalize_type
    rw [if_pos h, pysplit_getD_one]
    rfl

theorem innerModelOf_of_open (localClasses : List String) (ty : String)
    (h : '[' ∈ ty.data) :
    innerModelOf localClasses ty =
      some (String.mk (pyrstrip ']' (segAfterLastOpen ty.data))) := by
  unfold innerModelOf
  rw [if_pos h, pysplit_getLastD]
  rfl

theorem fieldContribution_of_inner_some {localClasses : List String}
    {cname an ty im : String} (h : innerModelOf localClasses ty = some im)
    (hne : im ≠ "") :
    fieldContribution localClasses cname an ty =
      ((an, ty, true), [(cname, an, im)]) := by
  unfold fieldContribution
  rw [h]
  simp [hne]

theorem fieldContribution_fst (localClasses : List String) (cname an ty : String) :
    (fieldContribution localClasses cname an ty).1.1 = an := by
  unfold fieldContribution
  cases h : innerModelOf localClasses ty with
  | none => rfl
  | some im =>
    by_cases he : im = ""
    · simp [he]
    · simp [he]

theorem generic_descriptor_data (foo : String) :
    ("List[" ++ foo ++ "]").data =
      ('L' :: 'i' :: 's' :: 't' :: '[' :: []) ++ foo.data ++ [']'] := by
  have h1 : ("List[" ++ foo ++ "]").data = "List[".data ++ foo.data ++ "]".data := by
    simp [String.data_append]
  rw [h1]

theorem innerModelOf_list_wrapper (localClasses : List String) (foo : String)
    (h2 : '[' ∉ foo.data) (h3 : ']' ∉ foo.data) :
    innerModelOf localClasses ("List[" ++ foo ++ "]") = some foo := by
  have hdata := generic_descriptor_data foo
  have hopen : '[' ∈ ("List[" ++ foo ++ "]").data := by
    rw [hdata]
    simp
  rw [innerModelOf_of_open _ _ hopen, hdata]
  have hrev : ((('L' :: 'i' :: 's' :: 't' :: '[' :: []) ++ foo.data ++ [']']).reverse)
      = (']' :: foo.data.reverse) ++ ('[' :: 't' :: 's' :: 'i' :: 'L' :: []) := by
    simp
  unfold segAfterLastOpen
  rw [hrev]
  have hall : ∀ y ∈ (']' :: foo.data.reverse), ((fun x => x != '[') y) = true := by
    intro y hy
    rcases List.mem_cons.mp hy with rfl | hm
    · simp
    · have : y ∈ foo.data := by simpa using hm
      simp only [bne_iff_ne, ne_eq, decide_eq_true_eq]
      intro he
      subst he
      exact h2 this
  rw [takeWhile_append_of_all hall]
  have hstop : (('[' :: 't' :: 's' :: 'i' :: 'L' :: []).takeWhile (fun x => x != '[')) = [] := by
    simp [List.takeWhile_cons]
  rw [hstop, List.append_nil, List.reverse_cons, List.reverse_reverse,
    pyrstrip_append_singleton h3, string_mk_data]

/-! ## Characterization of the extraction pass -/

theorem extractClassFields_eq (localClasses : List String) (cname : String)
    (body : List ClassItem) :
    extractClassFields localClasses cname body =
      ((annFields body).map
        (fun p => (fieldContribution localClasses cname p.1 (resolve_type p.2)).1),
       (annFields body).flatMap
        (fun p => (fieldContribution localClasses cname p.1 (resolve_type p.2)).2)) := by
  suffices hgen : ∀ (b : List ClassItem)
      (acc : List (String × String × Bool) × List (String × String × String)),
      b.foldl (fun acc child =>
        match child with
        | ClassItem.annAssign (PyExpr.name an) a =>
            let c := fieldContribution localClasses cname an (resolve_type a)
            (acc.1 ++ [c.1], acc.2 ++ c.2)
        | _ => acc) acc =
      (acc.1 ++ (annFields b).map
        (fun p => (fieldContribution localClasses cname p.1 (resolve_type p.2)).1),
       acc.2 ++ (annFields b).flatMap
        (fun p => (fieldContribution localClasses cname p.1 (resolve_type p.2)).2)) by
    unfold extractClassFields
    rw [hgen ]
    simp
  intro b
  induction b with
  | nil => intro acc; simp [annFields]
  | cons hd tl ih =>
    intro acc
    cases hd with
    | annAssign target a =>
      cases target with
      | name an =>
        simp only [List.foldl_cons]
        rw [ih]
        simp [annFields, List.filterMap_cons, List.append_assoc]
      | attr v s =>
        simp only [List.foldl_cons]
        rw [ih]
        simp [annFields, List.filterMap_cons]
      | subscript v s =>
        simp only [List.foldl_cons]
        rw [ih]
        simp [annFields, List.filterMap_cons]
      | otherExpr =>
        simp only [List.foldl_cons]
        rw [ih]
        simp [annFields, List.filterMap_cons]
    | funcDef n =>
      simp only [List.foldl_cons]
      rw [ih]
      simp [annFields, List.filterMap_cons]
    | passItem =>
      simp only [List.foldl_cons]
      rw [ih]
      simp [annFields, List.filterMap_cons]

theorem annotatedFieldNames_eq (body : List ClassItem) :
    annotatedFieldNames body = (annFields body).map Prod.fst := by
  induction body with
  | nil => simp [annotatedFieldNames, annFields]
  | cons hd tl ih =>
    cases hd with
    | annAssign target a =>
      cases target with
      | name an =>
        simp only [annotatedFieldNames, annFields, List.filterMap_cons, List.map_cons]
        exact congrArg (fun z => an :: z) ih
      | attr v s =>
        simp only [annotatedFieldNames, annFields, List.filterMap_cons]
        exact ih
      | subscript v s =>
        simp only [annotatedFieldNames, annFields, List.filterMap_cons]
        exact ih
      | otherExpr =>
        simp only [annotatedFieldNames, annFields, List.filterMap_cons]
        exact ih
    | funcDef n =>
      simp only [annotatedFieldNames, annFields, List.filterMap_cons]
      exact ih
    | passItem =>
      simp only [annotatedFieldNames, annFields, List.filterMap_cons]
      exact ih

theorem fieldsOfDef_names (localClasses : List String)
    (kv : String × (List PyExpr × List ClassItem)) :
    (fieldsOfDef localClasses kv).map (fun fr => fr.1) = annotatedFieldNames kv.2.2 := by
  unfold fieldsOfDef
  rw [extractClassFields_eq, annotatedFieldNames_eq]
  simp only [List.map_map]
  apply List.map_congr_left
  intro p _
  simp only [Function.comp_apply]
  exact fieldContribution_fst localClasses kv.1 p.1 (resolve_type p.2)

theorem classDefinitions_nodup (body : List TopStmt) :
    dNodup (classDefinitions body) := by
  suffices hgen : ∀ (b : List TopStmt) (acc : List (String × (List PyExpr × List ClassItem))),
      dNodup acc →
      dNodup (b.foldl (fun acc s =>
        match s with
        | TopStmt.classDef n bs bd => dinsert n (bs, bd) acc
        | _ => acc) acc) by
    exact hgen body [] (by simp [dNodup, dkeys])
  intro b
  induction b with
  | nil => intro acc h; simpa using h
  | cons hd tl ih =>
    intro acc h
    cases hd with
    | classDef n bs bd =>
      simp only [List.foldl_cons]
      exact ih _ (dNodup_dinsert h n (bs, bd))
    | funcDef n =>
      simp only [List.foldl_cons]
      exact ih _ h
    | otherStmt =>
      simp only [List.foldl_cons]
      exact ih _ h

theorem classDefinitions_foldl_skip {l : List TopStmt} (h : hasNoClassDef l = true) :
    ∀ acc : List (String × (List PyExpr × List ClassItem)),
      l.foldl (fun acc s =>
        match s with
        | TopStmt.classDef n bs bd => dinsert n (bs, bd) acc
        | _ => acc) acc = acc := by
  induction l with
  | nil => intro acc; rfl
  | cons hd tl ih =>
    intro acc
    cases hd with
    | classDef n bs bd => simp [hasNoClassDef] at h
    | funcDef n =>
      simp only [List.foldl_cons]
      exact ih (by simpa [hasNoClassDef] using h) acc
    | otherStmt =>
      simp only [List.foldl_cons]
      exact ih (by simpa [hasNoClassDef] using h) acc

theorem extract_foldl_eq (file : String) (localClasses : List String) :
    ∀ (defs : List (String × (List PyExpr × List ClassItem))) (acc : ExtractResult),
      dNodup defs →
      (∀ k ∈ dkeys defs, k ∉ dkeys acc.classes) →
      (∀ k ∈ dkeys defs, k ∉ acc.base_models) →
      (∀ k ∈ dkeys defs, k ∉ dkeys acc.file_to_class_map) →
      defs.foldl (extractStep file localClasses) acc =
        { classes := acc.classes ++ defs.map (fun kv => (kv.1, fieldsOfDef localClasses kv)),
          base_models := acc.base_models ++
            (defs.filter (fun kv => classIsBaseModel kv.2.1)).map Prod.fst,
          nested_relationships :=
            acc.nested_relationships ++ defs.flatMap (nestedOfDef localClasses),
          file_to_class_map :=
            acc.file_to_class_map ++ defs.map (fun kv => (kv.1, file)) } := by
  intro defs
  induction defs with
  | nil =>
    intro acc _ _ _ _
    simp
  | cons kv t ih =>
    intro acc hnd hc hb hf
    have hk_head : kv.1 ∈ dkeys (kv :: t) := by simp [dkeys]
    have hkc : kv.1 ∉ dkeys acc.classes := hc kv.1 hk_head
    have hkb : kv.1 ∉ acc.base_models := hb kv.1 hk_head
    have hkf : kv.1 ∉ dkeys acc.file_to_class_map := hf kv.1 hk_head
    have hnd2 : (kv.1 :: dkeys t).Nodup := by
      simpa [dNodup, dkeys] using hnd
    have hnd' : dNodup t := (List.nodup_cons.mp hnd2).2
    have hk_not_t : kv.1 ∉ dkeys t := (List.nodup_cons.mp hnd2).1
    have hstep : extractStep file localClasses acc kv =
        { classes := acc.classes ++ [(kv.1, fieldsOfDef localClasses kv)],
          base_models := acc.base_models ++
            (if classIsBaseModel kv.2.1 then [kv.1] else []),
          nested_relationships := acc.nested_relationships ++ nestedOfDef localClasses kv,
          file_to_class_map := acc.file_to_class_map ++ [(kv.1, file)] } := by
      unfold extractStep
      rw [dinsert_of_not_mem hkc, dinsert_of_not_mem hkf]
      cases hbm : classIsBaseModel kv.2.1
      · simp [hbm, fieldsOfDef, nestedOfDef]
      · simp [hbm, fieldsOfDef, nestedOfDef, sinsert_of_not_mem hkb]
    simp only [List.foldl_cons, hstep]
    rw [ih]
    · simp only [List.map_cons, List.filter_cons, List.flatMap_cons]
      by_cases hbm : classIsBaseModel kv.2.1
      · simp [hbm, List.append_assoc]
      · simp [hbm, List.append_assoc]
    · exact hnd'
    · intro k hk
      simp only [dkeys, List.map_append, List.map_cons, List.map_nil, List.mem_append,
        List.mem_singleton]
      push_neg
      refine ⟨by simpa [dkeys] using hc k (by simp [dkeys, hk]; right; simpa [dkeys] using hk), ?_⟩
      intro he
      subst he
      exact hk_not_t hk
    · intro k hk
      simp only [List.mem_append, List.mem_singleton]
      push_neg
      constructor
      · exact hb k (by simp only [dkeys, List.map_cons, List.mem_cons]; right; simpa [dkeys] using hk)
      · by_cases hbm : classIsBaseModel kv.2.1
        · simp only [hbm, if_true, List.mem_singleton]
          intro he
          subst he
          exact hk_not_t hk
        · simp [hbm]
    · intro k hk
      simp only [dkeys, List.map_append, List.map_cons, List.map_nil, List.mem_append,
        List.mem_singleton]
      push_neg
      refine ⟨by simpa [dkeys] using hf k (by simp only [dkeys, List.map_cons, List.mem_cons]; right; simpa [dkeys] using hk), ?_⟩
      intro he
      subst he
      exact hk_not_t hk

theorem extract_classes_pure_eq (file : String) (body : List TopStmt) :
    extract_classes_pure file body =
      { classes := (classDefinitions body).map
          (fun kv => (kv.1, fieldsOfDef (dkeys (classDefinitions body)) kv)),
        base_models := ((classDefinitions body).filter
          (fun kv => classIsBaseModel kv.2.1)).map Prod.fst,
        nested_relationships := (classDefinitions body).flatMap
          (nestedOfDef (dkeys (classDefinitions body))),
        file_to_class_map := (classDefinitions body).map (fun kv => (kv.1, file)) } := by
  unfold extract_classes_pure
  rw [extract_foldl_eq file (dkeys (classDefinitions body)) (classDefinitions body)
    ⟨[], [], [], []⟩ (classDefinitions_nodup body)
    (by intro k _; simp [dkeys]) (by intro k _; simp) (by intro k _; simp [dkeys])]
  simp

theorem dlookup_map_pair {β γ : Type} (g : String × β → γ) :
    ∀ (d : List (String × β)) (a : String),
      dlookup a (d.map (fun kv => (kv.1, g kv))) = (dlookup a d).map (fun v => g (a, v)) := by
  intro d
  induction d with
  | nil => intro a; simp
  | cons hd tl ih =>
    intro a
    obtain ⟨k, v⟩ := hd
    by_cases h : k = a
    · subst h
      simp [dlookup]
    · simp only [List.map_cons, dlookup, if_neg h]
      exact ih a

/-! ## Key-set and lookup corollaries of the extraction characterization -/

theorem dkeys_map_pair {β γ : Type} (g : String × β → γ) (d : List (String × β)) :
    dkeys (d.map (fun kv => (kv.1, g kv))) = dkeys d := by
  unfold dkeys
  rw [List.map_map]
  apply List.map_congr_left
  intro kv _
  rfl

theorem extract_classes_keys (file : String) (body : List TopStmt) :
    dkeys (extract_classes_pure file body).classes = dkeys (classDefinitions body) := by
  rw [extract_classes_pure_eq]
  exact dkeys_map_pair _ _

theorem extract_fmap_keys (file : String) (body : List TopStmt) :
    dkeys (extract_classes_pure file body).file_to_class_map
      = dkeys (classDefinitions body) := by
  rw [extract_classes_pure_eq]
  exact dkeys_map_pair _ _

theorem extract_classes_nodup (file : String) (body : List TopStmt) :
    dNodup (extract_classes_pure file body).classes := by
  unfold dNodup
  rw [extract_classes_keys]
  exact classDefinitions_nodup body

theorem extract_fmap_nodup (file : String) (body : List TopStmt) :
    dNodup (extract_classes_pure file body).file_to_class_map := by
  unfold dNodup
  rw [extract_fmap_keys]
  exact classDefinitions_nodup body

theorem dlookup_extract_classes (file : String) (body : List TopStmt) (a : String) :
    dlookup a (extract_classes_pure file body).classes =
      (dlookup a (classDefinitions body)).map
        (fun v => (extractClassFields (dkeys (classDefinitions body)) a v.2).1) := by
  rw [extract_classes_pure_eq]
  exact dlookup_map_pair _ _ a

theorem dlookup_extract_fmap (file : String) (body : List TopStmt) (a : String) :
    dlookup a (extract_classes_pure file body).file_to_class_map =
      (dlookup a (classDefinitions body)).map (fun _ => file) := by
  rw [extract_classes_pure_eq]
  exact dlookup_map_pair _ _ a

/-! ## Lemmas about aggregation -/

theorem analyze_pure_two (f1 f2 : String) (m1 m2 : List TopStmt) :
    analyze_models_pure [(f1, m1), (f2, m2)] =
      mergeFile (mergeFile ⟨[], [], [], []⟩ (extract_classes_pure f1 m1))
        (extract_classes_pure f2 m2) := rfl

theorem analyze_foldl_error (e : String) :
    ∀ l : List (String × Option (List TopStmt)),
      l.foldl analyzeStep (Except.error e) = Except.error e := by
  intro l
  induction l with
  | nil => rfl
  | cons hd tl ih => exact ih

theorem analyze_error_of_parse_failure :
    ∀ (files : List (String × Option (List TopStmt)))
      (acc : Except String AggResult),
      (∃ p ∈ files, p.2 = none) →
      ∃ msg, files.foldl analyzeStep acc = Except.error msg := by
  intro files
  induction files with
  | nil =>
    rintro acc ⟨p, hp, _⟩
    simp at hp
  | cons hd tl ih =>
    rintro acc ⟨p, hp, hnone⟩
    rcases List.mem_cons.mp hp with rfl | hmem
    · have hstep : ∃ e, analyzeStep acc p = Except.error e := by
        cases acc with
        | error e => exact ⟨e, rfl⟩
        | ok a =>
          refine ⟨"SyntaxError: " ++ p.1, ?_⟩
          unfold analyzeStep extract_classes_with_nested_models
          rw [hnone]
          rfl
      obtain ⟨e, he⟩ := hstep
      rw [List.foldl_cons, he, analyze_foldl_error]
      exact ⟨e, rfl⟩
    · exact ih _ ⟨p, hmem, hnone⟩

/-! ## Lemmas about diagram label rows -/

theorem classLabelRows_eq_map (attrs : List (String × String × Bool))
    (inconsistentAttrs : List String) :
    classLabelRows attrs inconsistentAttrs = attrs.map (attrRow inconsistentAttrs) := by
  suffices hgen : ∀ (l : List (String × String × Bool))
      (acc : List (String × String × RowClass)),
      l.foldl (fun rows fr => rows ++ [attrRow inconsistentAttrs fr]) acc
        = acc ++ l.map (attrRow inconsistentAttrs) by
    have := hgen attrs []
    simpa [classLabelRows] using this
  intro l
  induction l with
  | nil => intro acc; simp
  | cons hd tl ih =>
    intro acc
    simp only [List.foldl_cons, List.map_cons]
    rw [ih]
    simp [List.append_assoc]

theorem attrRow_fst (inconsistentAttrs : List String) (fr : String × String × Bool) :
    (attrRow inconsistentAttrs fr).1 = fr.1 := by
  unfold attrRow
  split_ifs <;> rfl

theorem dlookup_some_of_mem_keys {α : Type} {n : String} {d : List (String × α)}
    (h : n ∈ dkeys d) : ∃ v, dlookup n d = some v := by
  cases hp : dlookup n d with
  | none =>
    rw [dlookup_eq_none_iff] at hp
    exact absurd h hp
  | some v => exact ⟨v, rfl⟩

/-! ## Invariant of the attribute-index loop -/

theorem typesOfPairs_append (pr1 pr2 : List (String × (String × String × Bool)))
    (a : String) :
    typesOfPairs (pr1 ++ pr2) a = typesOfPairs pr1 a ++ typesOfPairs pr2 a := by
  unfold typesOfPairs
  rw [List.filterMap_append]

theorem filesOfPairs_append (fmap : List (String × String))
    (pr1 pr2 : List (String × (String × String × Bool))) (a : String) :
    filesOfPairs fmap (pr1 ++ pr2) a
      = filesOfPairs fmap pr1 a ++ filesOfPairs fmap pr2 a := by
  unfold filesOfPairs
  rw [List.filterMap_append]

theorem typesOfPairs_single (cname : String) (fr : String × String × Bool) (a : String) :
    typesOfPairs [(cname, fr)] a
      = if fr.1 = a then [normalize_type fr.2.1] else [] := by
  unfold typesOfPairs
  by_cases h : fr.1 = a
  · simp [List.filterMap_cons, h]
  · simp [List.filterMap_cons, h]

theorem filesOfPairs_single {fmap : List (String × String)} {cname file : String}
    (hf : dlookup cname fmap = some file) (fr : String × String × Bool) (a : String) :
    filesOfPairs fmap [(cname, fr)] a = if fr.1 = a then [file] else [] := by
  unfold filesOfPairs
  by_cases h : fr.1 = a
  · simp [List.filterMap_cons, h, hf]
  · simp [List.filterMap_cons, h]

theorem no_occurrence_of_types_nil {pr : List (String × (String × String × Bool))}
    {a : String} (h : typesOfPairs pr a = []) : ∀ p ∈ pr, p.2.1 ≠ a := by
  unfold typesOfPairs at h
  rw [List.filterMap_eq_nil] at h
  intro p hp he
  have h2 := h p hp
  rw [if_pos he] at h2
  cases h2

theorem filesOfPairs_nil_of_types_nil {pr : List (String × (String × String × Bool))}
    {a : String} (h : typesOfPairs pr a = []) (fmap : List (String × String)) :
    filesOfPairs fmap pr a = [] := by
  unfold filesOfPairs
  rw [List.filterMap_eq_nil]
  intro p hp
  rw [if_neg (no_occurrence_of_types_nil h p hp)]

theorem addAttr_invariant {fmap : List (String × String)} {cname file : String}
    (hf : dlookup cname fmap = some file)
    {pr : List (String × (String × String × Bool))}
    {st : List (String × List String) × List (String × List String)}
    (hinv : IndexInv fmap pr st) (fr : String × String × Bool) :
    ∃ st', addAttr fmap cname st fr = some st' ∧
      IndexInv fmap (pr ++ [(cname, fr)]) st' := by
  obtain ⟨hnd1, hkeys, hmain⟩ := hinv
  refine ⟨(dinsert fr.1 (sinsert (normalize_type fr.2.1) ((dlookup fr.1 st.1).getD [])) st.1,
           dinsert fr.1 (((dlookup fr.1 st.2).getD []) ++ [file]) st.2), ?_, ?_, ?_, ?_⟩
  · unfold addAttr
    rw [hf]
  · exact dNodup_dinsert hnd1 _ _
  · rw [dkeys_dinsert, dkeys_dinsert, hkeys]
  · intro a
    by_cases ha : fr.1 = a
    · subst ha
      have htypes_app : typesOfPairs (pr ++ [(cname, fr)]) fr.1
          = typesOfPairs pr fr.1 ++ [normalize_type fr.2.1] := by
        rw [typesOfPairs_append, typesOfPairs_single, if_pos rfl]
      have hfiles_app : filesOfPairs fmap (pr ++ [(cname, fr)]) fr.1
          = filesOfPairs fmap pr fr.1 ++ [file] := by
        rw [filesOfPairs_append, filesOfPairs_single hf, if_pos rfl]
      refine ⟨?_, ?_, ?_⟩
      · intro l hl
        rw [dlookup_dinsert_self] at hl
        injection hl with hl
        subst hl
        cases hold : dlookup fr.1 st.1 with
        | some lold =>
          obtain ⟨hnodup, hmem⟩ := (hmain fr.1).1 lold hold
          simp only [Option.getD_some]
          refine ⟨sinsert_nodup hnodup _, ?_⟩
          intro t
          rw [mem_sinsert, htypes_app]
          simp only [List.mem_append, List.mem_singleton]
          rw [hmem t]
          tauto
        | none =>
          have h0 := (hmain fr.1).2.1 hold
          simp only [Option.getD_none]
          refine ⟨sinsert_nodup List.nodup_nil _, ?_⟩
          intro t
          rw [mem_sinsert, htypes_app, h0]
          simp
      · intro hl
        rw [dlookup_dinsert_self] at hl
        cases hl
      · intro lf hlf
        rw [dlookup_dinsert_self] at hlf
        injection hlf with hlf
        subst hlf
        intro f
        rw [hfiles_app]
        cases holdf : dlookup fr.1 st.2 with
        | some lfold =>
          have hmemf := (hmain fr.1).2.2 lfold holdf
          simp only [Option.getD_some, List.mem_append, List.mem_singleton]
          rw [hmemf f]
        | none =>
          have hnone1 : dlookup fr.1 st.1 = none := by
            rw [dlookup_eq_none_iff] at holdf ⊢
            rw [hkeys]
            exact holdf
          have h0 := (hmain fr.1).2.1 hnone1
          have hfn := filesOfPairs_nil_of_types_nil h0 fmap
          rw [hfn]
          simp
    · have htypes_app : typesOfPairs (pr ++ [(cname, fr)]) a = typesOfPairs pr a := by
        rw [typesOfPairs_append, typesOfPairs_single, if_neg ha, List.append_nil]
      have hfiles_app : filesOfPairs fmap (pr ++ [(cname, fr)]) a
          = filesOfPairs fmap pr a := by
        rw [filesOfPairs_append, filesOfPairs_single hf, if_neg ha, List.append_nil]
      refine ⟨?_, ?_, ?_⟩
      · intro l hl
        rw [dlookup_dinsert_ne ha] at hl
        obtain ⟨hnodup, hmem⟩ := (hmain a).1 l hl
        rw [htypes_app]
        exact ⟨hnodup, hmem⟩
      · intro hl
        rw [dlookup_dinsert_ne ha] at hl
        rw [htypes_app]
        exact (hmain a).2.1 hl
      · intro lf hlf
        rw [dlookup_dinsert_ne ha] at hlf
        rw [hfiles_app]
        exact (hmain a).2.2 lf hlf

/-! ## Claim theorems -/

/-- Claim C3: the type resolver is total and follows exactly the claimed
case analysis: a bare name resolves to itself, a qualified annotation to
its trailing attribute, a recognized generic subscript with a bare name,
subscript or qualified argument resolves to Outer[Inner] with Inner
recursively resolved, any other subscript shape resolves to ComplexType,
and any other annotation shape resolves to Unknown. -/
theorem resolve_type_cases :
    (∀ i, resolve_type (.name i) = i) ∧
    (∀ v a, resolve_type (.attr v a) = a) ∧
    (∀ c s, c ∈ recognizedContainers →
      ((∃ i, s = PyExpr.name i) ∨ (∃ v2 s2, s = PyExpr.subscript v2 s2) ∨
        (∃ v2 a2, s = PyExpr.attr v2 a2)) →
      resolve_type (.subscript (.name c) s) = c ++ "[" ++ resolve_type s ++ "]") ∧
    (∀ c s, c ∉ recognizedContainers →
      resolve_type (.subscript (.name c) s) = "ComplexType") ∧
    (∀ c, resolve_type (.subscript (.name c) .otherExpr) = "ComplexType") ∧
    (∀ v s, (∀ i, v ≠ PyExpr.name i) → resolve_type (.subscript v s) = "ComplexType") ∧
    (resolve_type .otherExpr = "Unknown") := by
  refine ⟨fun i => rfl, fun v a => rfl, ?_, ?_, fun c => rfl, ?_, rfl⟩
  · intro c s hc hs
    rcases hs with ⟨i, rfl⟩ | ⟨v2, s2, rfl⟩ | ⟨v2, a2, rfl⟩
    · simp [resolve_type, hc]
    · simp [resolve_type, hc]
    · simp [resolve_type, hc]
  · intro c s hc
    cases s <;> simp [resolve_type, hc]
  · intro v s hv
    cases v with
    | name i => exact absurd rfl (hv i)
    | attr v2 a2 => rfl
    | subscript v2 s2 => rfl
    | otherExpr => rfl

/-- Witness for claim C3 at concrete annotations. -/
theorem resolve_type_cases_witness :
    resolve_type (.subscript (.name "List") (.name "Foo"))
        = "List" ++ "[" ++ resolve_type (.name "Foo") ++ "]" ∧
    resolve_type (.subscript (.name "Set") (.name "Foo")) = "ComplexType" ∧
    resolve_type (.subscript (.attr (.name "t") "T") (.name "x")) = "ComplexType" :=
  ⟨resolve_type_cases.2.2.1 "List" (.name "Foo") (by decide) (Or.inl ⟨"Foo", rfl⟩),
   resolve_type_cases.2.2.2.1 "Set" (.name "Foo") (by decide),
   resolve_type_cases.2.2.2.2.2.1 (.attr (.name "t") "T") (.name "x")
     (fun i h => by cases h)⟩

/-- Claim C4 (amended): when a descriptor contains an opening bracket,
normalization returns the segment strictly after the first opening bracket
and strictly before the next opening bracket or the end of the string,
with trailing closing brackets stripped; a bracket-free descriptor is
returned unchanged. -/
theorem normalize_type_amended (ty : String) :
    ('[' ∉ ty.data → normalize_type ty = ty) ∧
    ('[' ∈ ty.data →
      normalize_type ty = String.mk (pyrstrip ']' (segAfterFirstOpen ty.data))) :=
  normalize_type_characterization ty

/-- Witness for claim C4 at concrete descriptors. -/
theorem normalize_type_amended_witness :
    normalize_type "str" = "str" ∧
    normalize_type "List[Optional[Foo]]" =
      String.mk (pyrstrip ']' (segAfterFirstOpen ("List[Optional[Foo]]").data)) :=
  ⟨(normalize_type_amended "str").1 (by decide),
   (normalize_type_amended "List[Optional[Foo]]").2 (by decide)⟩

/-- Counterexample to claim C4 as stated: on List[Optional[Foo]] the code
returns Optional, not the substring Optional[Foo] between the first
opening bracket and the last closing bracket. -/
theorem normalize_type_counterexample :
    normalize_type "List[Optional[Foo]]" = "Optional" ∧
    String.mk (betweenFirstOpenLastClose ("List[Optional[Foo]]").data) = "Optional[Foo]" ∧
    normalize_type "List[Optional[Foo]]" ≠
      String.mk (betweenFirstOpenLastClose ("List[Optional[Foo]]").data) :=
  ⟨by decide, by decide, by decide⟩

/-- Claim C5 (amended): for a field whose resolved descriptor contains a
generic wrapper, the inner type computed by extraction, and emitted as the
NestedReference target whenever it is nonempty, is the substring after the
last opening bracket with trailing closing brackets stripped. -/
theorem nested_target_after_last_open (localClasses : List String)
    (cname an ty : String) (h : '[' ∈ ty.data) :
    innerModelOf localClasses ty
        = some (String.mk (pyrstrip ']' (segAfterLastOpen ty.data))) ∧
    (String.mk (pyrstrip ']' (segAfterLastOpen ty.data)) ≠ "" →
      (fieldContribution localClasses cname an ty).2 =
        [(cname, an, String.mk (pyrstrip ']' (segAfterLastOpen ty.data)))]) := by
  have h1 := innerModelOf_of_open localClasses ty h
  refine ⟨h1, fun hne => ?_⟩
  rw [fieldContribution_of_inner_some h1 hne]

/-- Witness for claim C5 at a concrete nested generic descriptor. -/
theorem nested_target_after_last_open_witness :
    innerModelOf [] "List[Optional[Foo]]"
        = some (String.mk (pyrstrip ']' (segAfterLastOpen ("List[Optional[Foo]]").data))) ∧
    (fieldContribution [] "A" "x" "List[Optional[Foo]]").2 =
      [("A", "x", String.mk (pyrstrip ']' (segAfterLastOpen ("List[Optional[Foo]]").data)))] :=
  ⟨(nested_target_after_last_open [] "A" "x" "List[Optional[Foo]]" (by decide)).1,
   (nested_target_after_last_open [] "A" "x" "List[Optional[Foo]]" (by decide)).2 (by decide)⟩

/-- Counterexample to claim C5 as stated: for a field of resolved type
List[Optional[Foo]], the emitted NestedReference target is Foo, not the
substring Optional[Foo] between the first opening bracket and the last
closing bracket. -/
theorem nested_target_counterexample :
    (extract_classes_pure "m.py"
        [TopStmt.classDef "A" []
          [ClassItem.annAssign (PyExpr.name "x")
            (PyExpr.subscript (PyExpr.name "List")
              (PyExpr.subscript (PyExpr.name "Optional")
                (PyExpr.name "Foo")))]]).nested_relationships
      = [("A", "x", "Foo")] ∧
    String.mk (betweenFirstOpenLastClose ("List[Optional[Foo]]").data) = "Optional[Foo]" ∧
    ("Foo" : String) ≠ "Optional[Foo]" :=
  ⟨by decide, by decide, by decide⟩

/-- Claim C2 (amended): a field whose resolved type is the generic
descriptor List[Foo] produces exactly one NestedReference with target Foo
and is marked nested, for every local class table, whether or not Foo is a
collected class; the local class table is consulted only for non-generic
descriptors. -/
theorem generic_field_always_nested (localClasses : List String)
    (cname an foo : String) (h1 : foo.data ≠ []) (h2 : '[' ∉ foo.data)
    (h3 : ']' ∉ foo.data) :
    fieldContribution localClasses cname an ("List[" ++ foo ++ "]") =
      ((an, "List[" ++ foo ++ "]", true), [(cname, an, foo)]) := by
  have him := innerModelOf_list_wrapper localClasses foo h2 h3
  have hfoo : foo ≠ "" := by
    intro he
    subst he
    exact h1 rfl
  exact fieldContribution_of_inner_some him hfoo

/-- Witness for claim C2: the field type List[str], with an empty local
class table, still contributes one nested reference to str. -/
theorem generic_field_always_nested_witness :
    fieldContribution [] "C" "x" ("List[" ++ "str" ++ "]") =
      (("x", "List[" ++ "str" ++ "]", true), [("C", "x", "str")]) :=
  generic_field_always_nested [] "C" "x" "str" (by decide) (by decide) (by decide)

/-- Counterexample to claim C2 as stated: a file with a single class C
holding a field x of type List[str] and no class named str still produces
the NestedReference (C, x, str) and marks the field nested, while the
claim demands no NestedReference and a false nested flag. -/
theorem generic_nested_without_local_class :
    (extract_classes_pure "m.py"
        [TopStmt.classDef "C" []
          [ClassItem.annAssign (PyExpr.name "x")
            (PyExpr.subscript (PyExpr.name "List")
              (PyExpr.name "str"))]]).nested_relationships
      = [("C", "x", "str")] ∧
    dlookup "C" (extract_classes_pure "m.py"
        [TopStmt.classDef "C" []
          [ClassItem.annAssign (PyExpr.name "x")
            (PyExpr.subscript (PyExpr.name "List")
              (PyExpr.name "str"))]]).classes = some [("x", "List[str]", true)] ∧
    (extract_classes_pure "m.py"
        [TopStmt.classDef "C" []
          [ClassItem.annAssign (PyExpr.name "x")
            (PyExpr.subscript (PyExpr.name "List")
              (PyExpr.name "str"))]]).nested_relationships ≠ [] :=
  ⟨by decide, by decide, by decide⟩

/-- Claim C6: a parse failure aborts the whole extraction and aggregation
pass with an uncaught error, while the same parse failure during per-file
diagram generation only turns that file into a failure outcome with a
reported message, leaving every other file of the diagram pass
unaffected. -/
theorem parse_failure_asymmetry (pre post : List (String × Option (List TopStmt)))
    (f : String) :
    (∃ msg, analyze_models_folder (pre ++ (f, none) :: post) = Except.error msg) ∧
    diagramPass (pre ++ (f, none) :: post) =
      diagramPass pre ++
        DiagramOutcome.failed ("Error generating diagram for " ++ f) :: diagramPass post := by
  constructor
  · exact analyze_error_of_parse_failure _ _ ⟨(f, none), by simp, rfl⟩
  · unfold diagramPass
    rw [List.map_append, List.map_cons]
    rfl

/-- Claim C10: when one file holds exactly two top-level class definitions
with the same name, extraction is identical to extracting a file holding
only the second definition: the earlier definition contributes no field
records, no base-model flag and no nested references. -/
theorem duplicate_class_single_file (file n : String) (bs1 bs2 : List PyExpr)
    (b1 b2 : List ClassItem) (pre mid post : List TopStmt)
    (hpre : hasNoClassDef pre = true) (hmid : hasNoClassDef mid = true)
    (hpost : hasNoClassDef post = true) :
    extract_classes_pure file
        (pre ++ [TopStmt.classDef n bs1 b1] ++ mid ++ [TopStmt.classDef n bs2 b2] ++ post)
      = extract_classes_pure file [TopStmt.classDef n bs2 b2] := by
  have hdefs : classDefinitions
      (pre ++ [TopStmt.classDef n bs1 b1] ++ mid ++ [TopStmt.classDef n bs2 b2] ++ post)
      = classDefinitions [TopStmt.classDef n bs2 b2] := by
    unfold classDefinitions
    rw [List.foldl_append, List.foldl_append, List.foldl_append, List.foldl_append]
    rw [classDefinitions_foldl_skip hpre]
    simp only [List.foldl_cons, List.foldl_nil]
    rw [classDefinitions_foldl_skip hmid]
    rw [classDefinitions_foldl_skip hpost]
    simp [dinsert]
  unfold extract_classes_pure
  rw [hdefs]

/-- Witness for claim C10 at a concrete duplicated class. -/
theorem duplicate_class_single_file_witness :
    extract_classes_pure "m.py"
        ([] ++ [TopStmt.classDef "C" [] [ClassItem.annAssign (PyExpr.name "a") (PyExpr.name "int")]]
          ++ [TopStmt.otherStmt]
          ++ [TopStmt.classDef "C" [PyExpr.name "BaseModel"]
                [ClassItem.annAssign (PyExpr.name "b") (PyExpr.name "str")]]
          ++ [])
      = extract_classes_pure "m.py"
          [TopStmt.classDef "C" [PyExpr.name "BaseModel"]
            [ClassItem.annAssign (PyExpr.name "b") (PyExpr.name "str")]] :=
  duplicate_class_single_file "m.py" "C" [] [PyExpr.name "BaseModel"]
    [ClassItem.annAssign (PyExpr.name "a") (PyExpr.name "int")]
    [ClassItem.annAssign (PyExpr.name "b") (PyExpr.name "str")]
    [] [TopStmt.otherStmt] [] (by decide) (by decide) (by decide)

/-- Claim C8: the field records of every extracted class list the
annotated fields in declaration order, and the rows of the class label in
the folder-wide diagram are emitted in the same order. -/
theorem field_order_preserved (file : String) (body : List TopStmt) (n : String)
    (bs : List PyExpr) (cb : List ClassItem) (inconsistentAttrs : List String)
    (h : dlookup n (classDefinitions body) = some (bs, cb)) :
    ∃ attrs, dlookup n (extract_classes_pure file body).classes = some attrs ∧
      attrs.map (fun fr => fr.1) = annotatedFieldNames cb ∧
      (classLabelRows attrs inconsistentAttrs).map (fun r => r.1)
        = annotatedFieldNames cb := by
  refine ⟨(extractClassFields (dkeys (classDefinitions body)) n cb).1, ?_, ?_, ?_⟩
  · rw [dlookup_extract_classes, h]
    rfl
  · exact fieldsOfDef_names (dkeys (classDefinitions body)) (n, (bs, cb))
  · rw [classLabelRows_eq_map, List.map_map]
    have hcomp : ∀ fr : String × String × Bool,
        ((fun r : String × String × RowClass => r.1) ∘ attrRow inconsistentAttrs) fr
          = fr.1 := by
      intro fr
      simp only [Function.comp_apply]
      exact attrRow_fst inconsistentAttrs fr
    rw [List.map_congr_left (fun fr _ => hcomp fr)]
    exact fieldsOfDef_names (dkeys (classDefinitions body)) (n, (bs, cb))

/-- Witness for claim C8 at a concrete two-field class. -/
theorem field_order_preserved_witness :
    ∃ attrs, dlookup "User" (extract_classes_pure "m.py"
        [TopStmt.classDef "User" []
          [ClassItem.annAssign (PyExpr.name "name") (PyExpr.name "str"),
           ClassItem.funcDef "helper",
           ClassItem.annAssign (PyExpr.name "age") (PyExpr.name "int")]]).classes
      = some attrs ∧
      attrs.map (fun fr => fr.1) = annotatedFieldNames
        [ClassItem.annAssign (PyExpr.name "name") (PyExpr.name "str"),
         ClassItem.funcDef "helper",
         ClassItem.annAssign (PyExpr.name "age") (PyExpr.name "int")] ∧
      (classLabelRows attrs ["age"]).map (fun r => r.1) = annotatedFieldNames
        [ClassItem.annAssign (PyExpr.name "name") (PyExpr.name "str"),
         ClassItem.funcDef "helper",
         ClassItem.annAssign (PyExpr.name "age") (PyExpr.name "int")] :=
  field_order_preserved "m.py"
    [TopStmt.classDef "User" []
      [ClassItem.annAssign (PyExpr.name "name") (PyExpr.name "str"),
       ClassItem.funcDef "helper",
       ClassItem.annAssign (PyExpr.name "age") (PyExpr.name "int")]]
    "User" []
    [ClassItem.annAssign (PyExpr.name "name") (PyExpr.name "str"),
     ClassItem.funcDef "helper",
     ClassItem.annAssign (PyExpr.name "age") (PyExpr.name "int")]
    ["age"] (by decide)

/-- Claim C7: when two files each define a class with the same name, the
aggregated class table and the class-to-file map both retain the
definition from the file processed later: the lookup of the name yields
the later extraction result and the later file, and the only entries of
the aggregated table under that name are those of the later extraction. -/
theorem later_file_wins (f1 f2 : String) (m1 m2 : List TopStmt) (n : String)
    (_h1 : n ∈ dkeys (classDefinitions m1)) (h2 : n ∈ dkeys (classDefinitions m2)) :
    dlookup n (analyze_models_pure [(f1, m1), (f2, m2)]).all_classes
        = dlookup n (extract_classes_pure f2 m2).classes ∧
    dlookup n (analyze_models_pure [(f1, m1), (f2, m2)]).class_to_file_map = some f2 ∧
    (∀ attrs, (n, attrs) ∈ (analyze_models_pure [(f1, m1), (f2, m2)]).all_classes ↔
        (n, attrs) ∈ (extract_classes_pure f2 m2).classes) := by
  have hkeys2 : n ∈ dkeys (extract_classes_pure f2 m2).classes := by
    rw [extract_classes_keys]
    exact h2
  obtain ⟨v, hv⟩ := dlookup_some_of_mem_keys hkeys2
  have hclasses_eq :
      (analyze_models_pure [(f1, m1), (f2, m2)]).all_classes =
        dupdate (dupdate [] (extract_classes_pure f1 m1).classes)
          (extract_classes_pure f2 m2).classes := by
    rw [analyze_pure_two]
    rfl
  have hfmap_eq :
      (analyze_models_pure [(f1, m1), (f2, m2)]).class_to_file_map =
        dupdate (dupdate [] (extract_classes_pure f1 m1).file_to_class_map)
          (extract_classes_pure f2 m2).file_to_class_map := by
    rw [analyze_pure_two]
    rfl
  have hlook :
      dlookup n (analyze_models_pure [(f1, m1), (f2, m2)]).all_classes
        = dlookup n (extract_classes_pure f2 m2).classes := by
    rw [hclasses_eq,
      dlookup_dupdate (extract_classes_pure f2 m2).classes _ n
        (extract_classes_nodup f2 m2), hv]
  refine ⟨hlook, ?_, ?_⟩
  · obtain ⟨d, hd⟩ := dlookup_some_of_mem_keys h2
    have hf2 : dlookup n (extract_classes_pure f2 m2).file_to_class_map = some f2 := by
      rw [dlookup_extract_fmap, hd]
      rfl
    rw [hfmap_eq,
      dlookup_dupdate (extract_classes_pure f2 m2).file_to_class_map _ n
        (extract_fmap_nodup f2 m2), hf2]
  · have hagg_nodup : dNodup (analyze_models_pure [(f1, m1), (f2, m2)]).all_classes := by
      rw [hclasses_eq]
      exact dNodup_dupdate _ _ (dNodup_dupdate _ _ (by simp [dNodup, dkeys]))
    intro attrs
    constructor
    · intro hmem
      have hl := mem_dlookup hagg_nodup hmem
      rw [hlook] at hl
      exact dlookup_mem hl
    · intro hmem
      have hl := mem_dlookup (extract_classes_nodup f2 m2) hmem
      exact dlookup_mem (by rw [hlook, hl])

/-- Witness for claim C7 at two concrete files defining the same class. -/
theorem later_file_wins_witness :
    dlookup "C" (analyze_models_pure
        [("a.py", [TopStmt.classDef "C" [] [ClassItem.annAssign (PyExpr.name "x") (PyExpr.name "int")]]),
         ("b.py", [TopStmt.classDef "C" [] [ClassItem.annAssign (PyExpr.name "y") (PyExpr.name "str")]])]).all_classes
      = dlookup "C" (extract_classes_pure "b.py"
          [TopStmt.classDef "C" [] [ClassItem.annAssign (PyExpr.name "y") (PyExpr.name "str")]]).classes ∧
    dlookup "C" (analyze_models_pure
        [("a.py", [TopStmt.classDef "C" [] [ClassItem.annAssign (PyExpr.name "x") (PyExpr.name "int")]]),
         ("b.py", [TopStmt.classDef "C" [] [ClassItem.annAssign (PyExpr.name "y") (PyExpr.name "str")]])]).class_to_file_map
      = some "b.py" ∧
    (∀ attrs, (("C", attrs) ∈ (analyze_models_pure
        [("a.py", [TopStmt.classDef "C" [] [ClassItem.annAssign (PyExpr.name "x") (PyExpr.name "int")]]),
         ("b.py", [TopStmt.classDef "C" [] [ClassItem.annAssign (PyExpr.name "y") (PyExpr.name "str")]])]).all_classes) ↔
        (("C", attrs) ∈ (extract_classes_pure "b.py"
          [TopStmt.classDef "C" [] [ClassItem.annAssign (PyExpr.name "y") (PyExpr.name "str")]]).classes)) :=
  later_file_wins "a.py" "b.py"
    [TopStmt.classDef "C" [] [ClassItem.annAssign (PyExpr.name "x") (PyExpr.name "int")]]
    [TopStmt.classDef "C" [] [ClassItem.annAssign (PyExpr.name "y") (PyExpr.name "str")]]
    "C" (by decide) (by decide)

theorem foldlM_addAttr_invariant {fmap : List (String × String)} {cname file : String}
    (hf : dlookup cname fmap = some file) :
    ∀ (attrs : List (String × String × Bool))
      (pr : List (String × (String × String × Bool)))
      (st : List (String × List String) × List (String × List String)),
      IndexInv fmap pr st →
      ∃ st', attrs.foldlM (fun st2 fr => addAttr fmap cname st2 fr) st = some st' ∧
        IndexInv fmap (pr ++ attrs.map (fun fr => (cname, fr))) st' := by
  intro attrs
  induction attrs with
  | nil =>
    intro pr st h
    exact ⟨st, rfl, by simpa using h⟩
  | cons fr t ih =>
    intro pr st h
    obtain ⟨st1, hstep, hinv1⟩ := addAttr_invariant hf h fr
    obtain ⟨st', hfold, hinv'⟩ := ih (pr ++ [(cname, fr)]) st1 hinv1
    refine ⟨st', ?_, ?_⟩
    · rw [List.foldlM_cons, hstep]
      simpa using hfold
    · have harr : (pr ++ [(cname, fr)]) ++ t.map (fun fr => (cname, fr))
          = pr ++ (fr :: t).map (fun fr => (cname, fr)) := by
        simp
      rw [harr] at hinv'
      exact hinv'

theorem classFieldPairs_cons (c : String × List (String × String × Bool))
    (t : List (String × List (String × String × Bool))) :
    classFieldPairs (c :: t)
      = c.2.map (fun fr => (c.1, fr)) ++ classFieldPairs t := by
  unfold classFieldPairs
  rw [List.flatMap_cons]

theorem buildIndex_invariant :
    ∀ (classes : List (String × List (String × String × Bool)))
      (fmap : List (String × String))
      (pr : List (String × (String × String × Bool)))
      (st : List (String × List String) × List (String × List String)),
      (∀ c ∈ classes, c.1 ∈ dkeys fmap) →
      IndexInv fmap pr st →
      ∃ st', classes.foldlM
          (fun st c => c.2.foldlM (fun st2 fr => addAttr fmap c.1 st2 fr) st) st
          = some st' ∧
        IndexInv fmap (pr ++ classFieldPairs classes) st' := by
  intro classes
  induction classes with
  | nil =>
    intro fmap pr st _ h
    exact ⟨st, rfl, by simpa [classFieldPairs] using h⟩
  | cons c t ih =>
    intro fmap pr st hkeys h
    obtain ⟨file, hfile⟩ := dlookup_some_of_mem_keys (hkeys c (by simp))
    obtain ⟨st1, hstep, hinv1⟩ := foldlM_addAttr_invariant hfile c.2 pr st h
    obtain ⟨st', hfold, hinv'⟩ :=
      ih fmap (pr ++ c.2.map (fun fr => (c.1, fr))) st1
        (fun c2 hc2 => hkeys c2 (by simp [hc2])) hinv1
    refine ⟨st', ?_, ?_⟩
    · rw [List.foldlM_cons, hstep]
      simpa using hfold
    · rw [classFieldPairs_cons, ← List.append_assoc]
      exact hinv'

theorem buildIndex_spec (classes : List (String × List (String × String × Bool)))
    (fmap : List (String × String))
    (h : ∀ c ∈ classes, c.1 ∈ dkeys fmap) :
    ∃ atypes afiles, buildIndex classes fmap = some (atypes, afiles) ∧
      IndexInv fmap (classFieldPairs classes) (atypes, afiles) := by
  have hinit : IndexInv fmap [] ([], []) := by
    refine ⟨by simp [dNodup, dkeys], rfl, ?_⟩
    intro a
    refine ⟨?_, ?_, ?_⟩
    · intro l hl
      simp [dlookup] at hl
    · intro _
      rfl
    · intro lf hlf
      simp [dlookup] at hlf
  obtain ⟨st', hfold, hinv⟩ := buildIndex_invariant classes fmap [] ([], []) h hinit
  refine ⟨st'.1, st'.2, ?_, by simpa using hinv⟩
  unfold buildIndex
  rw [hfold]

theorem analyze_pure_keys_eq (files : List (String × List TopStmt)) :
    dkeys (analyze_models_pure files).all_classes
      = dkeys (analyze_models_pure files).class_to_file_map := by
  suffices hgen : ∀ (fs : List (String × List TopStmt)) (acc : AggResult),
      dkeys acc.all_classes = dkeys acc.class_to_file_map →
      dkeys ((fs.foldl mergePureStep acc).all_classes)
        = dkeys ((fs.foldl mergePureStep acc).class_to_file_map) by
    exact hgen files ⟨[], [], [], []⟩ rfl
  intro fs
  induction fs with
  | nil => intro acc h; exact h
  | cons f t ih =>
    intro acc h
    simp only [List.foldl_cons]
    apply ih
    unfold mergePureStep mergeFile
    exact dkeys_dupdate_congr _ _ _ _ h
      (by rw [extract_classes_keys, extract_fmap_keys])

/-- Claim C9: after each single-file extraction and after folder
aggregation, the class table and the class-to-file map have identical key
lists, and consequently the inconsistency detector runs without any
failing file lookup on the aggregated tables. -/
theorem key_sets_align (files : List (String × List TopStmt)) (fp : String)
    (body : List TopStmt) :
    dkeys (extract_classes_pure fp body).classes
        = dkeys (extract_classes_pure fp body).file_to_class_map ∧
    dkeys (analyze_models_pure files).all_classes
        = dkeys (analyze_models_pure files).class_to_file_map ∧
    (find_inconsistent_attributes (analyze_models_pure files).all_classes
        (analyze_models_pure files).class_to_file_map).isSome = true := by
  refine ⟨by rw [extract_classes_keys, extract_fmap_keys], analyze_pure_keys_eq files, ?_⟩
  have hkeys : ∀ c ∈ (analyze_models_pure files).all_classes,
      c.1 ∈ dkeys (analyze_models_pure files).class_to_file_map := by
    intro c hc
    rw [← analyze_pure_keys_eq files]
    exact List.mem_map_of_mem Prod.fst hc
  obtain ⟨atypes, afiles, hbuild, _⟩ :=
    buildIndex_spec (analyze_models_pure files).all_classes
      (analyze_models_pure files).class_to_file_map hkeys
  unfold find_inconsistent_attributes
  rw [hbuild]
  rfl

/-- Claim C1: an attribute name has an entry in the inconsistency summary
exactly when the set of distinct normalized types recorded for that name
across all classes has more than one element, and every entry lists
exactly that set of types together with the set of files of the owning
classes. -/
theorem inconsistency_summary_correct
    (classes : List (String × List (String × String × Bool)))
    (fmap : List (String × String))
    (h : ∀ c ∈ classes, c.1 ∈ dkeys fmap) :
    ∃ res, find_inconsistent_attributes classes fmap = some res ∧
      ∀ a : String,
        ((∃ e, (a, e) ∈ res.summary) ↔ 1 < (attrTypesSpec classes a).toFinset.card) ∧
        (∀ e, (a, e) ∈ res.summary →
          (∀ t, t ∈ e.types ↔ t ∈ attrTypesSpec classes a) ∧
          (∀ f, f ∈ e.files ↔ f ∈ attrFilesSpec fmap classes a)) := by
  obtain ⟨atypes, afiles, hbuild, hinv⟩ := buildIndex_spec classes fmap h
  obtain ⟨hnd1, hkeys, hmain⟩ := hinv
  refine ⟨_, by unfold find_inconsistent_attributes; rw [hbuild], ?_⟩
  intro a
  have hlen_card : ∀ l, dlookup a atypes = some l →
      l.length = (attrTypesSpec classes a).toFinset.card := by
    intro l hl
    obtain ⟨hnodup, hmem⟩ := (hmain a).1 l hl
    have hfin : l.toFinset = (attrTypesSpec classes a).toFinset := by
      apply Finset.ext
      intro t
      rw [List.mem_toFinset, List.mem_toFinset]
      exact hmem t
    rw [← List.toFinset_card_of_nodup hnodup, hfin]
  have hdestruct : ∀ e, (a, e) ∈ ((atypes.filter (fun kv => 1 < kv.2.length)).map
      (fun kv => (kv.1, SummaryEntry.mk kv.2 (listToSet ((dlookup kv.1 afiles).getD []))))) →
      dlookup a atypes = some e.types ∧ 1 < e.types.length ∧
        e.files = listToSet ((dlookup a afiles).getD []) := by
    intro e he
    rw [List.mem_map] at he
    obtain ⟨kv, hkvmem, hg⟩ := he
    rw [List.mem_filter] at hkvmem
    obtain ⟨hkv_at, hp⟩ := hkvmem
    have hkey : kv.1 = a := congrArg Prod.fst hg
    have hentry : SummaryEntry.mk kv.2 (listToSet ((dlookup kv.1 afiles).getD [])) = e :=
      congrArg Prod.snd hg
    have htypes : e.types = kv.2 := by rw [← hentry]
    have hfiles : e.files = listToSet ((dlookup kv.1 afiles).getD []) := by rw [← hentry]
    subst hkey
    refine ⟨?_, ?_, hfiles⟩
    · rw [htypes]
      exact mem_dlookup hnd1 hkv_at
    · rw [htypes]
      exact of_decide_eq_true hp
  constructor
  · constructor
    · rintro ⟨e, he⟩
      obtain ⟨hl, hlen, _⟩ := hdestruct e he
      rw [← hlen_card e.types hl]
      exact hlen
    · intro hcard
      cases hl : dlookup a atypes with
      | none =>
        exfalso
        have h0 := (hmain a).2.1 hl
        have : attrTypesSpec classes a = [] := h0
        rw [this] at hcard
        simp at hcard
      | some l =>
        have hplen : 1 < l.length := by
          rw [hlen_card l hl]
          exact hcard
        refine ⟨SummaryEntry.mk l (listToSet ((dlookup a afiles).getD [])), ?_⟩
        rw [List.mem_map]
        refine ⟨(a, l), ?_, rfl⟩
        rw [List.mem_filter]
        exact ⟨dlookup_mem hl, decide_eq_true hplen⟩
  · intro e he
    obtain ⟨hl, _, hfiles⟩ := hdestruct e he
    obtain ⟨hnodup, hmem⟩ := (hmain a).1 e.types hl
    refine ⟨hmem, ?_⟩
    intro f
    have hamem : a ∈ dkeys afiles := by
      rw [← hkeys, ← dlookup_isSome_iff, hl]
      rfl
    obtain ⟨lf, hlf⟩ := dlookup_some_of_mem_keys hamem
    have hmemf := (hmain a).2.2 lf hlf
    rw [hfiles, hlf]
    simp only [Option.getD_some]
    rw [mem_listToSet]
    exact hmemf f

/-- Witness for claim C1 at a concrete pair of classes sharing an
attribute name with two distinct normalized types. -/
theorem inconsistency_summary_correct_witness :
    ∃ res, find_inconsistent_attributes
        [("User", [("name", "str", false)]), ("Order", [("name", "int", false)])]
        [("User", "a.py"), ("Order", "b.py")] = some res ∧
      ∀ a : String,
        ((∃ e, (a, e) ∈ res.summary) ↔
          1 < (attrTypesSpec
            [("User", [("name", "str", false)]), ("Order", [("name", "int", false)])]
            a).toFinset.card) ∧
        (∀ e, (a, e) ∈ res.summary →
          (∀ t, t ∈ e.types ↔ t ∈ attrTypesSpec
            [("User", [("name", "str", false)]), ("Order", [("name", "int", false)])] a) ∧
          (∀ f, f ∈ e.files ↔ f ∈ attrFilesSpec [("User", "a.py"), ("Order", "b.py")]
            [("User", [("name", "str", false)]), ("Order", [("name", "int", false)])] a)) :=
  inconsistency_summary_correct
    [("User", [("name", "str", false)]), ("Order", [("name", "int", false)])]
    [("User", "a.py"), ("Order", "b.py")] (by decide)

end GFunc
